import Mathlib

/-!
Shallow embedding of `nim_tools` (`src/nim_tools/__init__.py`): the index
codec `alpha_index`, the Nim solver `nimwin`, and the seeded position
generator `nimgen`, together with proofs of the specified properties.
-/

namespace NimTools

/-! ### Index codec (`alpha_index`)

The source dispatches on the argument type of a single Python function
`alpha_index`; here the `int` branch (encoding) is `alpha_index_int` and the
`str` branch (decoding) is `alpha_index_str`.
-/

/-- Value of an upper-case letter: `'A' = 0, …, 'Z' = 25`.  Models
`numalpha[10:].index(c)` composed with `int(·, 26)` digit values from the
source, on upper-case letters. -/
def letterVal (c : Char) : Nat := c.toNat - 65

/-- The letter of a digit `d < 26`: models `numalpha[10:][d]`. -/
def valLetter (d : Nat) : Char := Char.ofNat (65 + d)

/-- `alphalen` from the source: the length of the string encoding `i`.  The
Python source computes `int(log(25*i+26, 26))` with floating-point
`math.log`; this model uses the exact integer logarithm.  The float
expression agrees with it for every `i < 3817158266467284` and first
misrounds just below the `26^12` boundary. -/
def alphalen (i : Nat) : Nat := Nat.log 26 (25 * i + 26)

/-- `floorval` from the source: the lowest index represented by a string of
the given length.  The Python source computes `int((26**length-26)/25)` with
float division; this model uses exact natural division, with which the float
expression agrees for every `length ≤ 12`.  (Python yields `-1` at
`length = 0`, which is reachable only while decoding the empty string, where
the source subsequently raises.) -/
def floorval (length : Nat) : Nat := (26 ^ length - 26) / 25

/-- The `divmod` loop of the source: `k` base-26 digits of `n`, least
significant first. -/
def encDigits : Nat → Nat → List Nat
  | 0, _ => []
  | k + 1, n => n % 26 :: encDigits k (n / 26)

/-- `alpha_index` on an `int` argument: encode `n` as a letter string. -/
def alpha_index_int (n : Nat) : List Char :=
  ((encDigits (alphalen n) (n - floorval (alphalen n))).reverse).map valLetter

/-- `int(upper, 26)` applied to the digit translation of `s`: the base-26
value of a letter string, most significant digit first. -/
def base26 (s : List Char) : Nat :=
  s.foldl (fun acc c => acc * 26 + letterVal c) 0

/-- `alpha_index` on a `str` argument: decode an upper-case letter string
(the source upper-cases its input before translating). -/
def alpha_index_str (s : List Char) : Nat :=
  floorval s.length + base26 s

/-- The value of a base-26 digit list, most significant digit first (the
digit-level counterpart of `base26`). -/
def digitsVal (ds : List Nat) : Nat := ds.foldl (fun acc d => acc * 26 + d) 0

/-- Length-first, then alphabetical, strict order on letter strings: the
order of the spec's monotonicity property.  For letters A–Z the
alphabetical order is the order of their `letterVal` digit values. -/
def lenAlphaLt (a b : List Char) : Prop :=
  a.length < b.length ∨
  (a.length = b.length ∧ List.Lex (fun c d => letterVal c < letterVal d) a b)

/-- Modelled from the spec's words (the closed form quoted by C7, not from
the source): `(26^(len-1) − 26)/25` as the claimed count of integers
represented by shorter strings, in integer arithmetic.  The source's
`floorval` uses `26^len`, not `26^(len-1)`. -/
def specShorterCount (len : Nat) : Int := ((26 : Int) ^ (len - 1) - 26) / 25

/-! ### Win solver (`nimwin`) -/

/-- `match = sub & ~p` from the source (`sub NIMPLY p`): the bits of `sub`
not set in `p`.  Python's `~` on unbounded non-negative ints makes this the
bitwise set difference `Nat.ldiff sub p` (`nimply_eq_ldiff` below); it is
written here as `sub - (sub &&& p)` — dropping the common bits from `sub` —
because `Nat.sub` and `Nat.land` are kernel-computable while `Nat.ldiff`'s
well-founded recursion is not. -/
def nimply (sub p : Nat) : Nat := sub - (sub &&& p)

/-- One iteration of the candidate-scanning `for` loop of `nimwin`: the state
is the pair `(abjunct, opts)`, the element is `(i, p)` from `enumerate`. -/
def scanStep (sub : Nat) (st : Nat × List Nat) (ip : Nat × Nat) : Nat × List Nat :=
  let m := nimply sub ip.2
  let st1 := if m < st.1 then (m, ([] : List Nat)) else st
  if m = st1.1 then (st1.1, st1.2 ++ [ip.1]) else st1

/-- The whole scanning loop of `nimwin`, started from
`abjunct = sub, opts = []`. -/
def nimscan (sub : Nat) (piles : List Nat) : Nat × List Nat :=
  piles.enum.foldl (scanStep sub) (sub, [])

/-- `endgame` from the source: at most one pile still holds more than one
token. -/
def endgameB (piles : List Nat) : Bool :=
  decide (piles.countP (fun q => decide (1 < q)) ≤ 1)

/-- The tri-state parity bias of the source: Python reuses the variable
`misere` for it, first as `misere and endgame` (`False = 0`, `True = 1`)
and then as `-1` when the count of non-empty piles is odd. -/
def nimbias (piles : List Nat) (misere : Bool) : Int :=
  if misere && endgameB piles then
    if piles.countP (fun q => decide (0 < q)) % 2 = 1 then -1 else 1
  else 0

/-- `nimwin` from the source.  `none` models the `TypeError` Python's
`reduce` raises on an empty tuple; on a non-empty tuple the result is
`some (sub, opts)`. -/
def nimwin (piles : List Nat) (misere : Bool) : Option (Int × List Nat) :=
  match piles with
  | [] => none
  | p :: ps =>
    let bias : Int := nimbias (p :: ps) misere
    let sub : Nat := ps.foldl (fun i j => i ^^^ j) p
    if (sub : Int) + bias ≠ 0 then
      let s := nimscan sub (p :: ps)
      some ((sub : Int) - 2 * (s.1 : Int) + bias, s.2)
    else
      some ((sub : Int) + bias, [])

/-- The bitwise XOR of a whole position (the "Grundy XOR" of the spec). -/
def xorAll (piles : List Nat) : Nat := piles.foldl (fun i j => i ^^^ j) 0

/-! ### Seeded generator (`nimgen`) -/

/-- `sys.maxsize` on the 64-bit CPython the source's doctests come from. -/
def sysMaxsize : Nat := 2 ^ 63 - 1

/-- An abstract deterministic pseudo-random source standing for Python's
`random` module.  The spec (§9) requires of the random source only that it
be a deterministic function of the seed, consumed in a fixed call order —
not any particular bit stream — so the module is modelled by a state of
type `Nat` with: `seedFn` (the state `random.seed(n)` installs), `val` (the
raw non-negative value one call reads from the current state) and `step`
(the state after one call). -/
structure RNG where
  seedFn : Nat → Nat
  val : Nat → Nat
  step : Nat → Nat

/-- `random.randint(a, b)`: a value in `[a, b]` (when `a ≤ b`), consuming
one call; returned together with the advanced state. -/
def RNG.randint (g : RNG) (a b : Nat) (s : Nat) : Nat × Nat :=
  (a + g.val s % (b + 1 - a), g.step s)

/-- `random.randrange(n)`: a value in `[0, n)`, with the advanced state. -/
def RNG.randrange (g : RNG) (n : Nat) (s : Nat) : Nat × Nat :=
  (g.val s % n, g.step s)

/-- `random.choice` on a sequence of length `n`: the chosen position in
`[0, n)`, with the advanced state. -/
def RNG.choiceIdx (g : RNG) (n : Nat) (s : Nat) : Nat × Nat :=
  (g.val s % n, g.step s)

/-- The pile-drawing `for` loop of `nimgen`: `k` draws of
`randint(mintokens, maxtokens) = randint(2, 12)`, filled in index order. -/
def drawPiles (g : RNG) : Nat → Nat → List Nat × Nat
  | 0, s => ([], s)
  | k + 1, s =>
    let v := g.randint 2 12 s
    let rest := drawPiles g k v.2
    (v.1 :: rest.1, rest.2)

/-- The rebalancing branch of `nimgen` (`if fairstart != bool(winnable)`):
pick a selector pile from `stack` (or any pile when `stack` is empty),
append `piles[selector] ^ (piles[selector] - winnable)` — or a fresh
`randint(2, 12)` draw when that value is 0.  The `d < 0` guard marks the
case `piles[selector] - winnable < 0`, where Python would XOR a negative
int — proved unreachable below — instead of silently modelling a
two's-complement XOR. -/
def nimgenBalance (g : RNG) (s : Nat) (piles : List Nat) (winnable : Int)
    (stack : List Nat) : Option (List Nat) :=
  let sel := if stack = [] then List.range piles.length else stack
  let ch := g.choiceIdx sel.length s
  let selector := sel.getD ch.1 0
  let p := piles.getD selector 0
  let d : Int := (p : Int) - winnable
  if d < 0 then none
  else
    let newpile : Nat := d.toNat ^^^ p
    let extra := if newpile ≠ 0 then newpile else (g.randint 2 12 ch.2).1
    some (piles ++ [extra])

/-- The body of `nimgen` from `random.seed(seed)` onward, a function of the
seed alone.  Constants are the source's: `minpiles = 3`, `maxpiles = 7`
(the count is `randint(minpiles, maxpiles-1)`), `mintokens = 2`,
`maxtokens = 12`.  The first `none` repeats `nimwin`'s empty-tuple failure
and is unreachable (at least three piles are drawn). -/
def nimgenSeeded (g : RNG) (seed : Nat) (fairstart : Bool) :
    Option (List Nat × Nat) :=
  let s1 := g.seedFn seed
  let draw := g.randint 3 (7 - 1) s1
  let dp := drawPiles g draw.1 draw.2
  (nimwin dp.1 false).bind fun ws =>
    if fairstart != decide (ws.1 ≠ 0) then
      (nimgenBalance g dp.2 dp.1 ws.1 ws.2).map fun piles2 => (piles2, seed)
    else some (dp.1, seed)

/-- `nimgen` from the source.  `s0` is the ambient state of Python's global
`random` at call time; it is consulted only to draw a fresh seed when the
caller supplies none (`random.randrange(sys.maxsize)`), after which
`random.seed(seed)` makes everything a function of the seed alone. -/
def nimgen (g : RNG) (s0 : Nat) (seed? : Option Nat) (fairstart : Bool) :
    Option (List Nat × Nat) :=
  nimgenSeeded g
    (match seed? with
     | none => (g.randrange sysMaxsize s0).1
     | some sd => sd) fairstart

/-- A trivially computable instance of the abstract random source, used to
evaluate the generator theorems on concrete inputs. -/
def testRNG : RNG where
  seedFn := fun n => n
  val := fun s => s
  step := fun s => s + 1

/-! ## Bitwise arithmetic facts -/

theorem zero_ldiff (b : Nat) : Nat.ldiff 0 b = 0 := by
  simp [Nat.ldiff, Nat.bitwise_zero_left]

theorem ldiff_zero (a : Nat) : Nat.ldiff a 0 = a := by
  simp [Nat.ldiff, Nat.bitwise_zero_right]

theorem xor_add_two_mul_and (a : Nat) : ∀ b : Nat, (a ^^^ b) + 2 * (a &&& b) = a + b := by
  induction a using Nat.binaryRec with
  | z => simp
  | f ba a ih =>
    intro b
    induction b using Nat.binaryRec with
    | z => simp
    | f bb b ihb =>
      rw [Nat.xor_bit, Nat.land_bit, Nat.bit_val, Nat.bit_val, Nat.bit_val, Nat.bit_val]
      have h := ih b
      cases ba <;> cases bb <;> simp <;> omega

theorem ldiff_add_and (a : Nat) : ∀ b : Nat, Nat.ldiff a b + (a &&& b) = a := by
  induction a using Nat.binaryRec with
  | z => intro b; rw [zero_ldiff]; simp
  | f ba a ih =>
    intro b
    induction b using Nat.binaryRec with
    | z => rw [ldiff_zero]; simp
    | f bb b ihb =>
      rw [Nat.ldiff_bit, Nat.land_bit, Nat.bit_val, Nat.bit_val, Nat.bit_val]
      have h := ih b
      cases ba <;> cases bb <;> simp <;> omega

/-- The executable `nimply` is the bitwise set difference, i.e. exactly
Python's `sub & ~p` on non-negative ints. -/
theorem nimply_eq_ldiff (s p : Nat) : nimply s p = Nat.ldiff s p := by
  have h := ldiff_add_and s p
  unfold nimply
  omega

theorem nimply_le (s p : Nat) : nimply s p ≤ s := by
  unfold nimply
  omega

/-- The key arithmetic consequence of the XOR/AND identities: for any pile
`p` and total XOR `x`, `(p ^^^ x) + x = p + 2 * (x & ~p)`. -/
theorem xor_arith (p x : Nat) : (p ^^^ x) + x = p + 2 * nimply x p := by
  have h1 := xor_add_two_mul_and p x
  have h2 := ldiff_add_and x p
  have h3 : p &&& x = x &&& p := Nat.and_comm p x
  rw [nimply_eq_ldiff]
  omega

theorem exists_testBit_of_foldl (k : Nat) :
    ∀ (l : List Nat) (a : Nat), a.testBit k = false →
      (l.foldl (fun i j => i ^^^ j) a).testBit k = true →
      ∃ p ∈ l, p.testBit k = true := by
  intro l
  induction l with
  | nil =>
    intro a ha h
    rw [List.foldl_nil, ha] at h
    exact absurd h (by simp)
  | cons p t ih =>
    intro a ha h
    by_cases hp : p.testBit k = true
    · exact ⟨p, List.mem_cons_self p t, hp⟩
    · have hxa : (a ^^^ p).testBit k = false := by
        rw [Nat.testBit_xor, ha]
        simp [Bool.not_eq_true] at hp
        simp [hp]
      rw [List.foldl_cons] at h
      obtain ⟨q, hq, h2⟩ := ih (a ^^^ p) hxa h
      exact ⟨q, List.mem_cons_of_mem _ hq, h2⟩

/-- A nonzero number has its bit `Nat.log 2` set (its top bit). -/
theorem testBit_log_two {x : Nat} (hx : x ≠ 0) :
    x.testBit (Nat.log 2 x) = true := by
  have h1 : 2 ^ Nat.log 2 x ≤ x := Nat.pow_log_le_self 2 hx
  have h2 : x < 2 ^ (Nat.log 2 x + 1) := Nat.lt_pow_succ_log_self (by norm_num) x
  have hp : 0 < 2 ^ Nat.log 2 x := Nat.pos_pow_of_pos _ (by norm_num)
  have hd : x / 2 ^ Nat.log 2 x = 1 := by
    have hlo : 1 ≤ x / 2 ^ Nat.log 2 x := (Nat.one_le_div_iff hp).2 h1
    have hhi : x / 2 ^ Nat.log 2 x < 2 := by
      rw [Nat.div_lt_iff_lt_mul hp]
      rw [Nat.pow_succ] at h2
      omega
    omega
  rw [Nat.testBit_to_div_mod, hd]
  rfl

/-- A pile holding the top bit of `x` has `x & ~p` at most `x` minus that
bit: removing from this pile can zero the XOR. -/
theorem nimply_topbit_le {x p : Nat} (hx : x ≠ 0)
    (hp : p.testBit (Nat.log 2 x) = true) :
    nimply x p + 2 ^ Nat.log 2 x ≤ x := by
  have h2 : 2 ^ Nat.log 2 x ≤ x &&& p := by
    rcases Nat.lt_or_ge (x &&& p) (2 ^ Nat.log 2 x) with h | h
    · have hb := Nat.testBit_lt_two_pow h
      rw [Nat.testBit_and, testBit_log_two hx, hp] at hb
      simp at hb
    · exact h
  have h3 : x &&& p ≤ x := Nat.and_le_left
  unfold nimply
  omega

/-! ## The candidate scan of `nimwin` -/

/-- The two sequential `if`s of the loop body collapse to three cases:
strictly smaller residual (reset), equal residual (append), larger
residual (skip). -/
theorem scanStep_eq (sub a : Nat) (o : List Nat) (i p : Nat) :
    scanStep sub (a, o) (i, p) =
      if nimply sub p < a then (nimply sub p, [i])
      else if nimply sub p = a then (a, o ++ [i]) else (a, o) := by
  unfold scanStep
  by_cases h1 : nimply sub p < a
  · simp [h1]
  · by_cases h2 : nimply sub p = a <;> simp [h1, h2]

theorem scanFold_fst_le (sub : Nat) :
    ∀ (l : List (Nat × Nat)) (a : Nat) (o : List Nat),
      (l.foldl (scanStep sub) (a, o)).1 ≤ a := by
  intro l
  induction l with
  | nil => intro a o; simp
  | cons jq t ih =>
    intro a o
    obtain ⟨j, q⟩ := jq
    rw [List.foldl_cons, scanStep_eq]
    by_cases h1 : nimply sub q < a
    · rw [if_pos h1]
      exact le_trans (ih _ _) (le_of_lt h1)
    · rw [if_neg h1]
      by_cases h2 : nimply sub q = a
      · rw [if_pos h2]; exact ih _ _
      · rw [if_neg h2]; exact ih _ _

theorem scanFold_le_mem (sub : Nat) :
    ∀ (l : List (Nat × Nat)) (a : Nat) (o : List Nat), ∀ ip ∈ l,
      (l.foldl (scanStep sub) (a, o)).1 ≤ nimply sub ip.2 := by
  intro l
  induction l with
  | nil => intro a o ip h; exact absurd h (List.not_mem_nil ip)
  | cons jq t ih =>
    intro a o ip hmem
    obtain ⟨j, q⟩ := jq
    rw [List.foldl_cons, scanStep_eq]
    rcases List.mem_cons.1 hmem with heq | ht
    · subst heq
      by_cases h1 : nimply sub q < a
      · rw [if_pos h1]
        exact scanFold_fst_le sub t _ _
      · rw [if_neg h1]
        have hle : a ≤ nimply sub q := Nat.le_of_not_lt h1
        by_cases h2 : nimply sub q = a
        · rw [if_pos h2]
          exact le_trans (scanFold_fst_le sub t _ _) hle
        · rw [if_neg h2]
          exact le_trans (scanFold_fst_le sub t _ _) hle
    · by_cases h1 : nimply sub q < a
      · rw [if_pos h1]; exact ih _ _ ip ht
      · rw [if_neg h1]
        by_cases h2 : nimply sub q = a
        · rw [if_pos h2]; exact ih _ _ ip ht
        · rw [if_neg h2]; exact ih _ _ ip ht

theorem scanFold_opts_ne (sub : Nat) :
    ∀ (l : List (Nat × Nat)) (a : Nat) (o : List Nat),
      a ≤ sub → (o = [] → a = sub) → (l = [] → o ≠ []) →
      (l.foldl (scanStep sub) (a, o)).2 ≠ [] := by
  intro l
  induction l with
  | nil =>
    intro a o _ _ h3
    simpa using h3 rfl
  | cons jq t ih =>
    intro a o ha ho _
    obtain ⟨j, q⟩ := jq
    rw [List.foldl_cons, scanStep_eq]
    by_cases h1 : nimply sub q < a
    · rw [if_pos h1]
      exact ih _ _ (le_trans (le_of_lt h1) ha) (fun h => absurd h (by simp))
        (fun _ => by simp)
    · rw [if_neg h1]
      by_cases h2 : nimply sub q = a
      · rw [if_pos h2]
        exact ih _ _ ha (fun h => absurd h (by simp)) (fun _ => by simp)
      · rw [if_neg h2]
        have hone : o ≠ [] := by
          intro h
          have hsa := ho h
          have hms := nimply_le sub q
          have := Nat.le_of_not_lt h1
          omega
        exact ih _ _ ha (fun h => absurd h hone) (fun _ => hone)

theorem scanFold_mem (sub : Nat) :
    ∀ (l : List (Nat × Nat)) (a : Nat) (o : List Nat) (i : Nat),
      i ∈ (l.foldl (scanStep sub) (a, o)).2 →
      (i ∈ o ∧ (l.foldl (scanStep sub) (a, o)).1 = a) ∨
      ∃ p, (i, p) ∈ l ∧ nimply sub p = (l.foldl (scanStep sub) (a, o)).1 := by
  intro l
  induction l with
  | nil =>
    intro a o i h
    exact Or.inl ⟨h, rfl⟩
  | cons jq t ih =>
    intro a o i h
    obtain ⟨j, q⟩ := jq
    rw [List.foldl_cons, scanStep_eq] at h ⊢
    by_cases h1 : nimply sub q < a
    · rw [if_pos h1] at h ⊢
      rcases ih _ _ _ h with ⟨hio, hfst⟩ | ⟨p, hp, hnp⟩
      · have : i = j := List.mem_singleton.1 hio
        subst this
        exact Or.inr ⟨q, List.mem_cons_self _ _, hfst.symm⟩
      · exact Or.inr ⟨p, List.mem_cons_of_mem _ hp, hnp⟩
    · rw [if_neg h1] at h ⊢
      by_cases h2 : nimply sub q = a
      · rw [if_pos h2] at h ⊢
        rcases ih _ _ _ h with ⟨hio, hfst⟩ | ⟨p, hp, hnp⟩
        · rcases List.mem_append.1 hio with hio' | hij
          · exact Or.inl ⟨hio', hfst⟩
          · have : i = j := List.mem_singleton.1 hij
            subst this
            exact Or.inr ⟨q, List.mem_cons_self _ _, by rw [h2, hfst]⟩
        · exact Or.inr ⟨p, List.mem_cons_of_mem _ hp, hnp⟩
      · rw [if_neg h2] at h ⊢
        rcases ih _ _ _ h with ⟨hio, hfst⟩ | ⟨p, hp, hnp⟩
        · exact Or.inl ⟨hio, hfst⟩
        · exact Or.inr ⟨p, List.mem_cons_of_mem _ hp, hnp⟩

theorem nimscan_fst_le (sub : Nat) (piles : List Nat) : (nimscan sub piles).1 ≤ sub :=
  scanFold_fst_le sub piles.enum sub []

theorem nimscan_fst_le_all (sub : Nat) (piles : List Nat) (ip : Nat × Nat)
    (h : ip ∈ piles.enum) : (nimscan sub piles).1 ≤ nimply sub ip.2 :=
  scanFold_le_mem sub piles.enum sub [] ip h

theorem nimscan_opts_ne (sub : Nat) (piles : List Nat) (h : piles ≠ []) :
    (nimscan sub piles).2 ≠ [] := by
  have henum : piles.enum ≠ [] := by
    intro he
    apply h
    have hl := congrArg List.length he
    rw [List.enum_length] at hl
    exact List.length_eq_zero.1 hl
  exact scanFold_opts_ne sub piles.enum sub [] le_rfl (fun _ => rfl)
    (fun he => absurd he henum)

theorem nimscan_mem (sub : Nat) (piles : List Nat) (i : Nat)
    (h : i ∈ (nimscan sub piles).2) :
    ∃ p, (i, p) ∈ piles.enum ∧ nimply sub p = (nimscan sub piles).1 := by
  rcases scanFold_mem sub piles.enum sub [] i h with ⟨hio, _⟩ | hex
  · exact absurd hio (List.not_mem_nil i)
  · exact hex

theorem mem_enum_get {l : List Nat} {i p : Nat} (h : (i, p) ∈ l.enum) :
    ∃ hi : i < l.length, l.get ⟨i, hi⟩ = p := by
  rw [List.mk_mem_enum_iff_getElem?] at h
  rw [List.getElem?_eq_some] at h
  obtain ⟨hi, he⟩ := h
  exact ⟨hi, by simpa using he⟩

theorem get_mem_enum {l : List Nat} {i : Nat} (hi : i < l.length) :
    (i, l.get ⟨i, hi⟩) ∈ l.enum := by
  rw [List.mk_mem_enum_iff_getElem?, List.getElem?_eq_some]
  exact ⟨hi, by simp⟩

/-! ## XOR of a position -/

theorem foldl_xor_init (t : List Nat) :
    ∀ x y : Nat, t.foldl (fun i j => i ^^^ j) (x ^^^ y) =
      x ^^^ t.foldl (fun i j => i ^^^ j) y := by
  induction t with
  | nil => intro x y; rfl
  | cons b t ih =>
    intro x y
    rw [List.foldl_cons, List.foldl_cons, Nat.xor_assoc, ih]

theorem xorAll_cons (a : Nat) (t : List Nat) : xorAll (a :: t) = a ^^^ xorAll t := by
  have h := foldl_xor_init t a 0
  rw [Nat.xor_zero] at h
  unfold xorAll
  rw [List.foldl_cons, Nat.zero_xor, h]

/-- Python's `reduce` over a non-empty tuple computes the XOR of the whole
position. -/
theorem xorAll_reduce (p : Nat) (ps : List Nat) :
    ps.foldl (fun i j => i ^^^ j) p = xorAll (p :: ps) := by
  unfold xorAll
  rw [List.foldl_cons, Nat.zero_xor]

theorem xorAll_append_singleton (l : List Nat) (v : Nat) :
    xorAll (l ++ [v]) = xorAll l ^^^ v := by
  unfold xorAll
  rw [List.foldl_append]
  rfl

theorem xorAll_set (l : List Nat) :
    ∀ (i v : Nat) (h : i < l.length),
      xorAll (l.set i v) = (xorAll l ^^^ l.get ⟨i, h⟩) ^^^ v := by
  induction l with
  | nil => intro i v h; simp at h
  | cons a t ih =>
    intro i v h
    cases i with
    | zero =>
      show xorAll (v :: t) = ((xorAll (a :: t) ^^^ a) ^^^ v)
      rw [xorAll_cons, xorAll_cons, Nat.xor_comm a (xorAll t), Nat.xor_assoc,
        Nat.xor_assoc, ← Nat.xor_assoc a a, Nat.xor_self, Nat.zero_xor,
        Nat.xor_comm]
    | succ i =>
      have hi : i < t.length := by simpa using h
      show xorAll (a :: t.set i v) = ((xorAll (a :: t) ^^^ t.get ⟨i, hi⟩) ^^^ v)
      rw [xorAll_cons, xorAll_cons, ih i v hi]
      rw [Nat.xor_assoc (a ^^^ xorAll t), Nat.xor_assoc a, Nat.xor_assoc (xorAll t)]

/-! ## Behaviour of `nimwin` -/

theorem nimbias_false (piles : List Nat) : nimbias piles false = 0 := by
  simp [nimbias]

theorem nimwin_cons (p : Nat) (ps : List Nat) (misere : Bool) :
    nimwin (p :: ps) misere =
      if (xorAll (p :: ps) : Int) + nimbias (p :: ps) misere ≠ 0 then
        some ((xorAll (p :: ps) : Int)
                - 2 * ((nimscan (xorAll (p :: ps)) (p :: ps)).1 : Int)
                + nimbias (p :: ps) misere,
              (nimscan (xorAll (p :: ps)) (p :: ps)).2)
      else some ((xorAll (p :: ps) : Int) + nimbias (p :: ps) misere, []) := by
  simp only [nimwin, xorAll_reduce]

theorem nimwin_false_eq (p : Nat) (ps : List Nat) :
    nimwin (p :: ps) false =
      if xorAll (p :: ps) ≠ 0 then
        some ((xorAll (p :: ps) : Int)
                - 2 * ((nimscan (xorAll (p :: ps)) (p :: ps)).1 : Int),
              (nimscan (xorAll (p :: ps)) (p :: ps)).2)
      else some (0, []) := by
  rw [nimwin_cons, nimbias_false]
  by_cases hx : xorAll (p :: ps) = 0
  · simp [hx]
  · have hxi : (xorAll (p :: ps) : Int) ≠ 0 := by exact_mod_cast hx
    simp [hx, hxi]

/-- When the position's XOR is nonzero the minimal residual `abjunct`
satisfies `2 * abjunct < xorValue`: the computed removal is strictly
positive. -/
theorem nimscan_two_mul_lt (piles : List Nat) (hx : xorAll piles ≠ 0) :
    2 * (nimscan (xorAll piles) piles).1 < xorAll piles := by
  have hbit : (xorAll piles).testBit (Nat.log 2 (xorAll piles)) = true :=
    testBit_log_two hx
  have hex : ∃ p ∈ piles, p.testBit (Nat.log 2 (xorAll piles)) = true := by
    apply exists_testBit_of_foldl (Nat.log 2 (xorAll piles)) piles 0
      (by simp [Nat.zero_testBit])
    exact hbit
  obtain ⟨p, hp, hpb⟩ := hex
  obtain ⟨i, hget⟩ := List.get_of_mem hp
  have henum := get_mem_enum (l := piles) i.2
  rw [Fin.eta, hget] at henum
  have hle := nimscan_fst_le_all (xorAll piles) piles (i.1, p) henum
  dsimp only at hle
  have htop := nimply_topbit_le hx hpb
  have hx2 : xorAll piles < 2 ^ (Nat.log 2 (xorAll piles) + 1) :=
    Nat.lt_pow_succ_log_self (by norm_num) (xorAll piles)
  rw [Nat.pow_succ] at hx2
  omega

/-- Packaged behaviour of `nimwin` under normal rules on a non-empty
position with nonzero XOR: the removal amount is the exact natural
subtraction `xor - 2·abjunct`, and it is strictly positive. -/
theorem nimwin_false_pos (p : Nat) (ps : List Nat) (hx : xorAll (p :: ps) ≠ 0) :
    nimwin (p :: ps) false =
      some (((xorAll (p :: ps) - 2 * (nimscan (xorAll (p :: ps)) (p :: ps)).1 : Nat) : Int),
            (nimscan (xorAll (p :: ps)) (p :: ps)).2) ∧
    0 < xorAll (p :: ps) - 2 * (nimscan (xorAll (p :: ps)) (p :: ps)).1 := by
  have hlt := nimscan_two_mul_lt (p :: ps) hx
  have hcast : ((xorAll (p :: ps) - 2 * (nimscan (xorAll (p :: ps)) (p :: ps)).1 : Nat) : Int)
      = (xorAll (p :: ps) : Int) - 2 * ((nimscan (xorAll (p :: ps)) (p :: ps)).1 : Int) := by
    have h2 : 2 * (nimscan (xorAll (p :: ps)) (p :: ps)).1 ≤ xorAll (p :: ps) :=
      le_of_lt hlt
    push_cast [Nat.cast_sub h2]
    ring
  refine ⟨?_, by omega⟩
  rw [nimwin_false_eq, if_pos hx, hcast]

/-- **C1**: for every non-empty position whose XOR is nonzero, `nimwin`
under normal rules returns a non-empty candidate list, and removing the
returned amount from any candidate pile is legal and makes the XOR of the
position exactly 0. -/
theorem nimwin_sound (piles : List Nat) (sub : Int) (opts : List Nat)
    (hx : xorAll piles ≠ 0)
    (h : nimwin piles false = some (sub, opts)) :
    opts ≠ [] ∧ ∀ i ∈ opts, ∃ hi : i < piles.length,
      sub.toNat ≤ piles.get ⟨i, hi⟩ ∧
      xorAll (piles.set i (piles.get ⟨i, hi⟩ - sub.toNat)) = 0 := by
  cases piles with
  | nil => exact absurd h (by simp [nimwin])
  | cons p ps =>
    obtain ⟨heq, hpos⟩ := nimwin_false_pos p ps hx
    rw [heq] at h
    injection h with h'
    rw [Prod.mk.injEq] at h'
    obtain ⟨h1, hopts⟩ := h'
    constructor
    · rw [← hopts]
      exact nimscan_opts_ne (xorAll (p :: ps)) (p :: ps) (by simp)
    · intro i hmem
      rw [← hopts] at hmem
      obtain ⟨q, henumq, hnq⟩ := nimscan_mem (xorAll (p :: ps)) (p :: ps) i hmem
      obtain ⟨hi, hget⟩ := mem_enum_get henumq
      have hsubnat : sub.toNat
          = xorAll (p :: ps) - 2 * (nimscan (xorAll (p :: ps)) (p :: ps)).1 := by
        rw [← h1]
        simp
      have hid := xor_arith q (xorAll (p :: ps))
      rw [hnq] at hid
      refine ⟨hi, ?_, ?_⟩
      · rw [hget, hsubnat]
        omega
      · rw [xorAll_set (p :: ps) i _ hi, hget, hsubnat]
        have hval : q - (xorAll (p :: ps)
            - 2 * (nimscan (xorAll (p :: ps)) (p :: ps)).1) = q ^^^ xorAll (p :: ps) := by
          omega
        rw [hval, Nat.xor_comm q (xorAll (p :: ps))]
        exact Nat.xor_self _

/-- **C1 witness**: the theorem applied to the doctested position
`(4, 2, 1)`. -/
theorem nimwin_sound_witness :
    xorAll [4, 2, 1] ≠ 0 ∧ nimwin [4, 2, 1] false = some (1, [0]) ∧
    (([0] : List Nat) ≠ [] ∧ ∀ i ∈ ([0] : List Nat),
      ∃ hi : i < ([4, 2, 1] : List Nat).length,
        (1 : Int).toNat ≤ ([4, 2, 1] : List Nat).get ⟨i, hi⟩ ∧
        xorAll (([4, 2, 1] : List Nat).set i
          (([4, 2, 1] : List Nat).get ⟨i, hi⟩ - (1 : Int).toNat)) = 0) :=
  ⟨by decide, by decide, nimwin_sound [4, 2, 1] 1 [0] (by decide) (by decide)⟩

/-- **C3**: the seven doctested solver equalities hold exactly. -/
theorem nimwin_known_cases :
    nimwin [4, 2, 1] false = some (1, [0]) ∧
    nimwin [6, 6, 2, 1] false = some (1, [0, 1, 2]) ∧
    nimwin [2, 2] false = some (0, []) ∧
    nimwin [1, 2, 1] false = some (2, [1]) ∧
    nimwin [1, 2, 1] true = some (1, [1]) ∧
    nimwin [1, 1] false = some (0, []) ∧
    nimwin [1, 1] true = some (1, [0, 1]) := by decide

/-- **C6 counterexample**: on the empty tuple `nimwin` does not return a
result (Python's `reduce` raises `TypeError`), in either mode. -/
theorem nimwin_nil_none : nimwin [] false = none ∧ nimwin [] true = none :=
  ⟨rfl, rfl⟩

/-- **C6 (amended)**: on every non-empty tuple of piles, in either mode,
`nimwin` returns a well-defined result. -/
theorem nimwin_total (piles : List Nat) (misere : Bool) (h : piles ≠ []) :
    ∃ r o, nimwin piles misere = some (r, o) := by
  cases piles with
  | nil => exact absurd rfl h
  | cons p ps =>
    rw [nimwin_cons]
    by_cases hc : (xorAll (p :: ps) : Int) + nimbias (p :: ps) misere ≠ 0
    · rw [if_pos hc]
      exact ⟨_, _, rfl⟩
    · rw [if_neg hc]
      exact ⟨_, _, rfl⟩

/-- **C6 witness**: totality applied to the concrete input `(1, 1)`,
misère mode. -/
theorem nimwin_total_witness :
    ([1, 1] : List Nat) ≠ [] ∧ ∃ r o, nimwin [1, 1] true = some (r, o) :=
  ⟨by decide, nimwin_total [1, 1] true (by decide)⟩

/-- **C5 counterexample**: at the doctested misère position `(1, 1)` the
solver takes its controllable branch (`xorValue + bias = 1 ≠ 0`) while
`xorValue − 2·minResidual = 0` is not strictly positive. -/
theorem nimwin_removal_cex :
    ((xorAll [1, 1] : Int) + nimbias [1, 1] true ≠ 0) ∧
    ¬ (0 < xorAll [1, 1] - 2 * (nimscan (xorAll [1, 1]) [1, 1]).1) := by decide

/-- **C5 (amended)**: whenever the controllable branch is taken,
`xorValue − 2·minResidual` is non-negative (the subtraction is exact); and
whenever the misère bias is zero — in particular always under normal
rules — it is strictly positive and at most the value of every candidate
pile, so the returned amount is a legal move on each candidate. -/
theorem nimwin_removal_legal (piles : List Nat) (misere : Bool)
    (hne : piles ≠ [])
    (hbr : (xorAll piles : Int) + nimbias piles misere ≠ 0) :
    2 * (nimscan (xorAll piles) piles).1 ≤ xorAll piles ∧
    (nimbias piles misere = 0 →
      0 < xorAll piles - 2 * (nimscan (xorAll piles) piles).1 ∧
      ∀ i ∈ (nimscan (xorAll piles) piles).2, ∃ hi : i < piles.length,
        xorAll piles - 2 * (nimscan (xorAll piles) piles).1 ≤ piles.get ⟨i, hi⟩) := by
  by_cases hx : xorAll piles = 0
  · have hm := nimscan_fst_le (xorAll piles) piles
    constructor
    · omega
    · intro hb
      exfalso
      apply hbr
      rw [hx, hb]
      simp
  · have hlt := nimscan_two_mul_lt piles hx
    refine ⟨le_of_lt hlt, fun _ => ⟨by omega, ?_⟩⟩
    intro i hmem
    obtain ⟨q, henumq, hnq⟩ := nimscan_mem (xorAll piles) piles i hmem
    obtain ⟨hi, hget⟩ := mem_enum_get henumq
    have hid := xor_arith q (xorAll piles)
    rw [hnq] at hid
    refine ⟨hi, ?_⟩
    rw [hget]
    omega

/-- **C5 witness**: the amended statement applied to `(4, 2, 1)` under
normal rules, where the bias is 0. -/
theorem nimwin_removal_legal_witness :
    ([4, 2, 1] : List Nat) ≠ [] ∧
    ((xorAll [4, 2, 1] : Int) + nimbias [4, 2, 1] false ≠ 0) ∧
    (2 * (nimscan (xorAll [4, 2, 1]) [4, 2, 1]).1 ≤ xorAll [4, 2, 1] ∧
    (nimbias [4, 2, 1] false = 0 →
      0 < xorAll [4, 2, 1] - 2 * (nimscan (xorAll [4, 2, 1]) [4, 2, 1]).1 ∧
      ∀ i ∈ (nimscan (xorAll [4, 2, 1]) [4, 2, 1]).2,
        ∃ hi : i < ([4, 2, 1] : List Nat).length,
          xorAll [4, 2, 1] - 2 * (nimscan (xorAll [4, 2, 1]) [4, 2, 1]).1
            ≤ ([4, 2, 1] : List Nat).get ⟨i, hi⟩)) :=
  ⟨by decide, by decide, nimwin_removal_legal [4, 2, 1] false (by decide) (by decide)⟩

/-! ## Behaviour of `nimgen` -/

theorem randint_bounds (g : RNG) (a b s : Nat) (h : a ≤ b) :
    a ≤ (g.randint a b s).1 ∧ (g.randint a b s).1 ≤ b := by
  unfold RNG.randint
  have hm : g.val s % (b + 1 - a) < b + 1 - a := Nat.mod_lt _ (by omega)
  constructor
  · exact Nat.le_add_right _ _
  · simp only
    omega

theorem drawPiles_length (g : RNG) : ∀ k s : Nat, ((drawPiles g k s).1).length = k := by
  intro k
  induction k with
  | zero => intro s; rfl
  | succ k ih =>
    intro s
    simp [drawPiles, ih]

theorem drawPiles_mem (g : RNG) :
    ∀ k s : Nat, ∀ p ∈ (drawPiles g k s).1, 2 ≤ p ∧ p ≤ 12 := by
  intro k
  induction k with
  | zero =>
    intro s p hp
    simp [drawPiles] at hp
  | succ k ih =>
    intro s p hp
    simp only [drawPiles] at hp
    rcases List.mem_cons.1 hp with heq | hmem
    · rw [heq]
      exact randint_bounds g 2 12 s (by norm_num)
    · exact ih _ p hmem

theorem nimwin_false_zero (piles : List Nat) (hne : piles ≠ [])
    (hx : xorAll piles = 0) : nimwin piles false = some (0, []) := by
  obtain ⟨p, ps, rfl⟩ := List.exists_cons_of_ne_nil hne
  rw [nimwin_false_eq, if_neg (by simpa using hx)]

theorem nimwin_false_nonzero (piles : List Nat) (hne : piles ≠ [])
    (hx : xorAll piles ≠ 0) :
    nimwin piles false =
      some (((xorAll piles - 2 * (nimscan (xorAll piles) piles).1 : Nat) : Int),
            (nimscan (xorAll piles) piles).2) ∧
    0 < xorAll piles - 2 * (nimscan (xorAll piles) piles).1 := by
  obtain ⟨p, ps, rfl⟩ := List.exists_cons_of_ne_nil hne
  exact nimwin_false_pos p ps hx

theorem nimgenBalance_shape (g : RNG) (s : Nat) (piles : List Nat) (w : Int)
    (stack l2 : List Nat) (h : nimgenBalance g s piles w stack = some l2) :
    ∃ extra, l2 = piles ++ [extra] ∧ extra ≠ 0 := by
  have key : ∀ (n e : Nat), 2 ≤ e → (if n ≠ 0 then n else e) ≠ 0 := by
    intro n e he
    split
    · assumption
    · omega
  simp only [nimgenBalance] at h
  split at h <;> split at h
  · exact absurd h (by simp)
  · injection h with h2
    exact ⟨_, h2.symm, key _ _ (randint_bounds g 2 12 _ (by norm_num)).1⟩
  · exact absurd h (by simp)
  · injection h with h2
    exact ⟨_, h2.symm, key _ _ (randint_bounds g 2 12 _ (by norm_num)).1⟩

/-- The rebalancing branch in the configuration reached when the drawn
position is already lost for the mover (`winnable = 0`, empty `stack`):
the appended pile is a fresh draw in `[2, 12]`. -/
theorem nimgenBalance_unfair (g : RNG) (s : Nat) (piles : List Nat) :
    ∃ e, nimgenBalance g s piles 0 [] = some (piles ++ [e]) ∧ 2 ≤ e ∧ e ≤ 12 := by
  refine ⟨(g.randint 2 12 (g.choiceIdx piles.length s).2).1, ?_,
    randint_bounds g 2 12 _ (by norm_num)⟩
  simp [nimgenBalance]

/-- The rebalancing branch in the configuration reached when the drawn
position is controllable (`winnable = xor − 2·abjunct ≠ 0`, `stack` the
scanned candidates): the appended pile is exactly the position's XOR. -/
theorem nimgenBalance_fair (g : RNG) (s : Nat) (piles : List Nat)
    (hx : xorAll piles ≠ 0) :
    nimgenBalance g s piles
      ((xorAll piles - 2 * (nimscan (xorAll piles) piles).1 : Nat) : Int)
      (nimscan (xorAll piles) piles).2 = some (piles ++ [xorAll piles]) := by
  have hne : piles ≠ [] := by
    intro h
    rw [h] at hx
    exact hx rfl
  have hstack : (nimscan (xorAll piles) piles).2 ≠ [] :=
    nimscan_opts_ne _ _ hne
  have hlt := nimscan_two_mul_lt piles hx
  simp only [nimgenBalance, if_neg hstack]
  have hlenpos : 0 < (nimscan (xorAll piles) piles).2.length :=
    List.length_pos.2 hstack
  have hidx : (g.choiceIdx (nimscan (xorAll piles) piles).2.length s).1
      < (nimscan (xorAll piles) piles).2.length := by
    unfold RNG.choiceIdx
    exact Nat.mod_lt _ hlenpos
  have hselmem : (nimscan (xorAll piles) piles).2.getD
      (g.choiceIdx (nimscan (xorAll piles) piles).2.length s).1 0
      ∈ (nimscan (xorAll piles) piles).2 := by
    rw [List.getD_eq_get _ _ hidx]
    exact List.get_mem _ _ _
  obtain ⟨q, henumq, hnq⟩ := nimscan_mem (xorAll piles) piles _ hselmem
  obtain ⟨hisel, hget⟩ := mem_enum_get henumq
  have hp : piles.getD ((nimscan (xorAll piles) piles).2.getD
      (g.choiceIdx (nimscan (xorAll piles) piles).2.length s).1 0) 0 = q := by
    rw [List.getD_eq_get _ _ hisel, hget]
  rw [hp]
  have hid := xor_arith q (xorAll piles)
  rw [hnq] at hid
  have hq2 : xorAll piles - 2 * (nimscan (xorAll piles) piles).1 ≤ q := by
    omega
  have hcast : ((xorAll piles - 2 * (nimscan (xorAll piles) piles).1 : Nat) : Int)
      = (xorAll piles : Int) - 2 * ((nimscan (xorAll piles) piles).1 : Int) := by
    push_cast [Nat.cast_sub (le_of_lt hlt)]
    ring
  have hnneg : ¬ ((q : Int)
      - ((xorAll piles - 2 * (nimscan (xorAll piles) piles).1 : Nat) : Int) < 0) := by
    rw [hcast]
    push_cast
    omega
  rw [if_neg hnneg]
  have hqval : q - (xorAll piles - 2 * (nimscan (xorAll piles) piles).1)
      = q ^^^ xorAll piles := by
    omega
  have hdt : ((q : Int)
      - ((xorAll piles - 2 * (nimscan (xorAll piles) piles).1 : Nat) : Int)).toNat
      = q ^^^ xorAll piles := by
    rw [← hqval, ← Nat.cast_sub hq2, Int.toNat_natCast]
  rw [hdt]
  have hnp : (q ^^^ xorAll piles) ^^^ q = xorAll piles := by
    rw [Nat.xor_comm q (xorAll piles), Nat.xor_assoc, Nat.xor_self, Nat.xor_zero]
  rw [hnp, if_pos hx]

theorem nimgenSeeded_fair (g : RNG) (S : Nat) :
    (∀ piles sd, nimgenSeeded g S true = some (piles, sd) →
      ∃ r o, nimwin piles false = some (r, o) ∧ r ≠ 0) ∧
    (∀ piles sd, nimgenSeeded g S false = some (piles, sd) →
      nimwin piles false = some (0, [])) := by
  have hcnt := randint_bounds g 3 (7 - 1) (g.seedFn S) (by norm_num)
  have hlen : (drawPiles g (g.randint 3 (7 - 1) (g.seedFn S)).1
      (g.randint 3 (7 - 1) (g.seedFn S)).2).1.length
      = (g.randint 3 (7 - 1) (g.seedFn S)).1 := drawPiles_length g _ _
  set dp := drawPiles g (g.randint 3 (7 - 1) (g.seedFn S)).1
    (g.randint 3 (7 - 1) (g.seedFn S)).2 with hdp
  have hne : dp.1 ≠ [] := by
    intro h0
    rw [h0, List.length_nil] at hlen
    omega
  constructor
  · intro piles sd h
    simp only [nimgenSeeded, ← hdp] at h
    by_cases hx : xorAll dp.1 = 0
    · rw [nimwin_false_zero dp.1 hne hx, Option.some_bind] at h
      rw [if_pos (by decide)] at h
      obtain ⟨e, hbal, he2, _⟩ := nimgenBalance_unfair g dp.2 dp.1
      rw [hbal, Option.map_some'] at h
      injection h with h'
      rw [Prod.mk.injEq] at h'
      obtain ⟨hpiles, _⟩ := h'
      subst hpiles
      have hxe : xorAll (dp.1 ++ [e]) ≠ 0 := by
        rw [xorAll_append_singleton, hx, Nat.zero_xor]
        omega
      obtain ⟨heq, hpos⟩ := nimwin_false_nonzero _ (by simp) hxe
      refine ⟨_, _, heq, ?_⟩
      simp only [ne_eq, Int.natCast_eq_zero]
      omega
    · obtain ⟨heq, hpos⟩ := nimwin_false_nonzero dp.1 hne hx
      rw [heq, Option.some_bind] at h
      have hcast : ((xorAll dp.1 - 2 * (nimscan (xorAll dp.1) dp.1).1 : Nat) : Int) ≠ 0 := by
        simp only [ne_eq, Int.natCast_eq_zero]
        omega
      rw [if_neg (by simp [hcast])] at h
      injection h with h'
      rw [Prod.mk.injEq] at h'
      obtain ⟨hpiles, _⟩ := h'
      subst hpiles
      exact ⟨_, _, heq, hcast⟩
  · intro piles sd h
    simp only [nimgenSeeded, ← hdp] at h
    by_cases hx : xorAll dp.1 = 0
    · rw [nimwin_false_zero dp.1 hne hx, Option.some_bind] at h
      rw [if_neg (by decide)] at h
      injection h with h'
      rw [Prod.mk.injEq] at h'
      obtain ⟨hpiles, _⟩ := h'
      subst hpiles
      exact nimwin_false_zero dp.1 hne hx
    · obtain ⟨heq, hpos⟩ := nimwin_false_nonzero dp.1 hne hx
      rw [heq, Option.some_bind] at h
      have hcast : ((xorAll dp.1 - 2 * (nimscan (xorAll dp.1) dp.1).1 : Nat) : Int) ≠ 0 := by
        simp only [ne_eq, Int.natCast_eq_zero]
        omega
      rw [if_pos (by simp [hcast])] at h
      rw [nimgenBalance_fair g dp.2 dp.1 hx, Option.map_some'] at h
      injection h with h'
      rw [Prod.mk.injEq] at h'
      obtain ⟨hpiles, _⟩ := h'
      subst hpiles
      apply nimwin_false_zero _ (by simp)
      rw [xorAll_append_singleton, Nat.xor_self]

/-- **C2**: for every seed, generation with `fairstart = true` yields a
position on which the solver (normal rules) reports a nonzero removal
amount, and generation with `fairstart = false` yields one on which it
reports removal amount 0 (with no candidates). -/
theorem nimgen_fairness (g : RNG) (s0 S : Nat) :
    (∀ piles sd, nimgen g s0 (some S) true = some (piles, sd) →
      ∃ r o, nimwin piles false = some (r, o) ∧ r ≠ 0) ∧
    (∀ piles sd, nimgen g s0 (some S) false = some (piles, sd) →
      nimwin piles false = some (0, [])) :=
  nimgenSeeded_fair g S

/-- **C2 witness**: the fairness contract evaluated on the concrete
random source `testRNG` at seed 5. -/
theorem nimgen_fairness_witness :
    nimgen testRNG 0 (some 5) true = some ([8, 9, 10, 11, 2], 5) ∧
    (∃ r o, nimwin [8, 9, 10, 11, 2] false = some (r, o) ∧ r ≠ 0) ∧
    nimgen testRNG 0 (some 5) false = some ([8, 9, 10, 11], 5) ∧
    nimwin [8, 9, 10, 11] false = some (0, []) :=
  ⟨by decide, (nimgen_fairness testRNG 0 5).1 [8, 9, 10, 11, 2] 5 (by decide),
   by decide, (nimgen_fairness testRNG 0 5).2 [8, 9, 10, 11] 5 (by decide)⟩

theorem nimgenSeeded_seed (g : RNG) (sv : Nat) (f : Bool) (piles : List Nat)
    (sd : Nat) (h : nimgenSeeded g sv f = some (piles, sd)) : sd = sv := by
  simp only [nimgenSeeded] at h
  cases hnw : nimwin (drawPiles g (g.randint 3 (7 - 1) (g.seedFn sv)).1
      (g.randint 3 (7 - 1) (g.seedFn sv)).2).1 false with
  | none =>
    rw [hnw, Option.none_bind] at h
    exact absurd h (by simp)
  | some ws =>
    rw [hnw, Option.some_bind] at h
    split at h
    · cases hb : nimgenBalance g (drawPiles g (g.randint 3 (7 - 1) (g.seedFn sv)).1
          (g.randint 3 (7 - 1) (g.seedFn sv)).2).2
          (drawPiles g (g.randint 3 (7 - 1) (g.seedFn sv)).1
          (g.randint 3 (7 - 1) (g.seedFn sv)).2).1 ws.1 ws.2 with
      | none =>
        rw [hb, Option.map_none'] at h
        exact absurd h (by simp)
      | some piles2 =>
        rw [hb, Option.map_some'] at h
        injection h with h'
        rw [Prod.mk.injEq] at h'
        exact h'.2.symm
    · injection h with h'
      rw [Prod.mk.injEq] at h'
      exact h'.2.symm

/-- **C9**: `nimgen` is deterministic in its seed — with an explicit seed
the ambient random state is irrelevant, two equal-seed calls agree — and
the returned seed alone reproduces the returned position, whether the seed
was caller-supplied or freshly drawn. -/
theorem nimgen_deterministic :
    (∀ (g : RNG) (s0 s1 S : Nat) (f : Bool),
      nimgen g s0 (some S) f = nimgen g s1 (some S) f) ∧
    (∀ (g : RNG) (s0 s1 : Nat) (sp : Option Nat) (f : Bool)
      (piles : List Nat) (sd : Nat),
      nimgen g s0 sp f = some (piles, sd) →
      nimgen g s1 (some sd) f = some (piles, sd)) := by
  constructor
  · intro g s0 s1 S f
    rfl
  · intro g s0 s1 sp f piles sd h
    have hsd := nimgenSeeded_seed g _ f piles sd h
    subst hsd
    exact h

/-- **C9 witness**: reproducibility evaluated on `testRNG`: a fresh-seed
run from ambient state 7 is reproduced by its returned seed. -/
theorem nimgen_deterministic_witness :
    nimgen testRNG 0 (some 5) true = nimgen testRNG 99 (some 5) true ∧
    nimgen testRNG 7 none true = some ([10, 11, 12, 2, 3, 4], 7) ∧
    nimgen testRNG 1 (some 7) true = some ([10, 11, 12, 2, 3, 4], 7) :=
  ⟨nimgen_deterministic.1 testRNG 0 99 5 true, by decide,
   nimgen_deterministic.2 testRNG 7 1 none true [10, 11, 12, 2, 3, 4] 7 (by decide)⟩

/-- **C10**: every generated position is a block of 3–6 drawn piles, each
in `[2, 12]`, plus at most one appended balancing pile, which is never 0
(so 3–7 piles in total, all strictly positive). -/
theorem nimgen_shape (g : RNG) (s0 : Nat) (sp : Option Nat) (f : Bool)
    (piles : List Nat) (sd : Nat) (h : nimgen g s0 sp f = some (piles, sd)) :
    ∃ dr ex, piles = dr ++ ex ∧ 3 ≤ dr.length ∧ dr.length ≤ 6 ∧ ex.length ≤ 1 ∧
      (∀ p ∈ dr, 2 ≤ p ∧ p ≤ 12) ∧ (∀ p ∈ ex, p ≠ 0) ∧
      3 ≤ piles.length ∧ piles.length ≤ 7 ∧ (∀ p ∈ piles, 0 < p) := by
  unfold nimgen at h
  revert h
  generalize (match sp with
    | none => (g.randrange sysMaxsize s0).1
    | some sd => sd) = sv
  intro h
  simp only [nimgenSeeded] at h
  have hcnt := randint_bounds g 3 (7 - 1) (g.seedFn sv) (by norm_num)
  have hlen : (drawPiles g (g.randint 3 (7 - 1) (g.seedFn sv)).1
      (g.randint 3 (7 - 1) (g.seedFn sv)).2).1.length
      = (g.randint 3 (7 - 1) (g.seedFn sv)).1 := drawPiles_length g _ _
  have hvals := drawPiles_mem g (g.randint 3 (7 - 1) (g.seedFn sv)).1
    (g.randint 3 (7 - 1) (g.seedFn sv)).2
  set dp := drawPiles g (g.randint 3 (7 - 1) (g.seedFn sv)).1
    (g.randint 3 (7 - 1) (g.seedFn sv)).2 with hdp
  cases hnw : nimwin dp.1 false with
  | none =>
    rw [hnw, Option.none_bind] at h
    exact absurd h (by simp)
  | some ws =>
    rw [hnw, Option.some_bind] at h
    split at h
    · cases hb : nimgenBalance g dp.2 dp.1 ws.1 ws.2 with
      | none =>
        rw [hb, Option.map_none'] at h
        exact absurd h (by simp)
      | some piles2 =>
        rw [hb, Option.map_some'] at h
        injection h with h'
        rw [Prod.mk.injEq] at h'
        obtain ⟨hpiles, _⟩ := h'
        subst hpiles
        obtain ⟨extra, hsh, hex0⟩ := nimgenBalance_shape g _ _ _ _ _ hb
        subst hsh
        refine ⟨dp.1, [extra], rfl, by omega, by omega, by simp, hvals, ?_, ?_, ?_, ?_⟩
        · intro p hp
          rw [List.mem_singleton.1 hp]
          exact hex0
        · simp only [List.length_append, List.length_singleton]
          omega
        · simp only [List.length_append, List.length_singleton]
          omega
        · intro p hp
          rcases List.mem_append.1 hp with hp | hp
          · exact lt_of_lt_of_le (by norm_num) (hvals p hp).1
          · rw [List.mem_singleton.1 hp]
            exact Nat.pos_of_ne_zero hex0
    · injection h with h'
      rw [Prod.mk.injEq] at h'
      obtain ⟨hpiles, _⟩ := h'
      subst hpiles
      refine ⟨dp.1, [], by simp, by omega, by omega, by simp, hvals, by simp, ?_, ?_, ?_⟩
      · omega
      · omega
      · intro p hp
        exact lt_of_lt_of_le (by norm_num) (hvals p hp).1

/-- **C10 witness**: the shape reading evaluated at a concrete generation
on `testRNG` with seed 5. -/
theorem nimgen_shape_witness :
    nimgen testRNG 0 (some 5) true = some ([8, 9, 10, 11, 2], 5) ∧
    (∃ dr ex, ([8, 9, 10, 11, 2] : List Nat) = dr ++ ex ∧ 3 ≤ dr.length ∧
      dr.length ≤ 6 ∧ ex.length ≤ 1 ∧ (∀ p ∈ dr, 2 ≤ p ∧ p ≤ 12) ∧
      (∀ p ∈ ex, p ≠ 0) ∧ 3 ≤ ([8, 9, 10, 11, 2] : List Nat).length ∧
      ([8, 9, 10, 11, 2] : List Nat).length ≤ 7 ∧
      (∀ p ∈ ([8, 9, 10, 11, 2] : List Nat), 0 < p)) :=
  ⟨by decide, nimgen_shape testRNG 0 (some 5) true [8, 9, 10, 11, 2] 5 (by decide)⟩

/-! ## The index codec -/

theorem pow26_mod_25 (L : Nat) : 26 ^ L % 25 = 1 := by
  induction L with
  | zero => rfl
  | succ L ih => rw [Nat.pow_succ, Nat.mul_mod, ih]

theorem floorval_spec (L : Nat) (hL : 1 ≤ L) : 25 * floorval L + 26 = 26 ^ L := by
  have h26 : 26 ≤ 26 ^ L := by
    calc 26 = 26 ^ 1 := (pow_one 26).symm
    _ ≤ 26 ^ L := Nat.pow_le_pow_right (by norm_num) hL
  have hmod := pow26_mod_25 L
  unfold floorval
  omega

theorem alphalen_spec (n : Nat) :
    1 ≤ alphalen n ∧ floorval (alphalen n) ≤ n ∧
    n < floorval (alphalen n) + 26 ^ alphalen n := by
  have h1 : 26 ^ alphalen n ≤ 25 * n + 26 := Nat.pow_log_le_self 26 (by omega)
  have h2 : 25 * n + 26 < 26 ^ (alphalen n + 1) :=
    Nat.lt_pow_succ_log_self (by norm_num) _
  have hA : 1 ≤ alphalen n := by
    unfold alphalen
    exact (Nat.pow_le_iff_le_log (by norm_num) (by omega)).1 (by omega)
  have hfv := floorval_spec (alphalen n) hA
  have hps : 26 ^ (alphalen n + 1) = 26 ^ alphalen n * 26 := pow_succ 26 _
  exact ⟨hA, by omega, by omega⟩

theorem alphalen_eq_of (n L : Nat) (hL : 1 ≤ L) (h1 : floorval L ≤ n)
    (h2 : n < floorval L + 26 ^ L) : alphalen n = L := by
  have hfv := floorval_spec L hL
  have hps : 26 ^ (L + 1) = 26 ^ L * 26 := pow_succ 26 L
  unfold alphalen
  apply Nat.log_eq_of_pow_le_of_lt_pow
  · omega
  · omega

theorem encDigits_length : ∀ k n : Nat, (encDigits k n).length = k := by
  intro k
  induction k with
  | zero => intro n; rfl
  | succ k ih =>
    intro n
    simp [encDigits, ih]

theorem encDigits_lt : ∀ k n : Nat, ∀ d ∈ encDigits k n, d < 26 := by
  intro k
  induction k with
  | zero =>
    intro n d hd
    simp [encDigits] at hd
  | succ k ih =>
    intro n d hd
    rcases List.mem_cons.1 hd with heq | hmem
    · rw [heq]
      exact Nat.mod_lt _ (by norm_num)
    · exact ih _ d hmem

theorem letterVal_valLetter (d : Nat) (hd : d < 26) : letterVal (valLetter d) = d := by
  have h : ∀ x : Fin 26, letterVal (valLetter x.1) = x.1 := by decide
  exact h ⟨d, hd⟩

theorem valLetter_letterVal (c : Char) (h1 : 65 ≤ c.toNat) (h2 : c.toNat ≤ 90) :
    valLetter (letterVal c) = c := by
  unfold valLetter letterVal
  have h : 65 + (c.toNat - 65) = c.toNat := by omega
  rw [h, Char.ofNat_toNat]

theorem base26_eq_digitsVal (s : List Char) : base26 s = digitsVal (s.map letterVal) := by
  unfold base26 digitsVal
  rw [List.foldl_map]

theorem digitsVal_append (l : List Nat) (d : Nat) :
    digitsVal (l ++ [d]) = 26 * digitsVal l + d := by
  unfold digitsVal
  rw [List.foldl_append]
  show digitsVal l * 26 + d = 26 * digitsVal l + d
  omega

theorem digitsVal_from_lt :
    ∀ (ds : List Nat) (acc : Nat), (∀ d ∈ ds, d < 26) →
      ds.foldl (fun a d => a * 26 + d) acc < (acc + 1) * 26 ^ ds.length := by
  intro ds
  induction ds with
  | nil =>
    intro acc _
    simpa using Nat.lt_succ_self acc
  | cons d t ih =>
    intro acc hd
    rw [List.foldl_cons]
    have hdl : d < 26 := hd d (List.mem_cons_self _ _)
    have hstep := ih (acc * 26 + d) (fun e he => hd e (List.mem_cons_of_mem _ he))
    have hle : (acc * 26 + d + 1) * 26 ^ t.length ≤ (acc + 1) * 26 ^ (t.length + 1) := by
      calc (acc * 26 + d + 1) * 26 ^ t.length
          ≤ ((acc + 1) * 26) * 26 ^ t.length :=
            Nat.mul_le_mul_right _ (by omega)
        _ = (acc + 1) * 26 ^ (t.length + 1) := by
            rw [pow_succ]
            ring
    simp only [List.length_cons]
    exact lt_of_lt_of_le hstep hle

theorem digitsVal_lt (ds : List Nat) (h : ∀ d ∈ ds, d < 26) :
    digitsVal ds < 26 ^ ds.length := by
  have := digitsVal_from_lt ds 0 h
  simpa [digitsVal] using this

theorem encDigits_val : ∀ k n : Nat, n < 26 ^ k →
    digitsVal ((encDigits k n).reverse) = n := by
  intro k
  induction k with
  | zero =>
    intro n h
    simp only [pow_zero, Nat.lt_one_iff] at h
    rw [h]
    rfl
  | succ k ih =>
    intro n h
    have hdiv : n / 26 < 26 ^ k := by
      apply Nat.div_lt_of_lt_mul
      rw [← pow_succ']
      exact h
    simp only [encDigits, List.reverse_cons]
    rw [digitsVal_append, ih (n / 26) hdiv]
    omega

theorem encDigits_of_digits :
    ∀ ds : List Nat, (∀ d ∈ ds, d < 26) →
      encDigits ds.length (digitsVal ds) = ds.reverse := by
  intro ds
  induction ds using List.reverseRecOn with
  | nil => intro _; rfl
  | append_singleton t d iht =>
    intro hmem
    have hd : d < 26 := hmem d (by simp)
    rw [digitsVal_append, List.length_append, List.length_singleton]
    have hmod : (26 * digitsVal t + d) % 26 = d := by omega
    have hdiv : (26 * digitsVal t + d) / 26 = digitsVal t := by omega
    simp only [encDigits]
    rw [hmod, hdiv, iht (fun e he => hmem e (by simp [he]))]
    simp

theorem alpha_index_int_length (n : Nat) :
    (alpha_index_int n).length = alphalen n := by
  unfold alpha_index_int
  rw [List.length_map, List.length_reverse, encDigits_length]

/-- **C4**: on the exact-arithmetic model of the codec, `alpha_index` is a
two-sided bijection: decoding inverts encoding on every `n`, and encoding
inverts decoding on every non-empty A–Z string.  (The Python source
realizes `alphalen`/`floorval` through floating point, which departs from
this exact model only at huge inputs — first at `n = 3817158266467284`;
see the accompanying analysis.) -/
theorem alpha_index_roundtrip :
    (∀ n : Nat, alpha_index_str (alpha_index_int n) = n) ∧
    (∀ s : List Char, s ≠ [] → (∀ c ∈ s, 65 ≤ c.toNat ∧ c.toNat ≤ 90) →
      alpha_index_int (alpha_index_str s) = s) := by
  constructor
  · intro n
    obtain ⟨hA, hlo, hhi⟩ := alphalen_spec n
    have hltds : ∀ d ∈ (encDigits (alphalen n) (n - floorval (alphalen n))).reverse,
        d < 26 := fun d hd => encDigits_lt _ _ d (List.mem_reverse.1 hd)
    have hmap : ((encDigits (alphalen n) (n - floorval (alphalen n))).reverse.map
        valLetter).map letterVal
        = (encDigits (alphalen n) (n - floorval (alphalen n))).reverse := by
      rw [List.map_map]
      have hcongr : ∀ d ∈ (encDigits (alphalen n) (n - floorval (alphalen n))).reverse,
          (letterVal ∘ valLetter) d = id d :=
        fun d hd => letterVal_valLetter d (hltds d hd)
      rw [List.map_congr_left hcongr, List.map_id]
    unfold alpha_index_str
    rw [alpha_index_int_length]
    unfold alpha_index_int
    rw [base26_eq_digitsVal, hmap, encDigits_val _ _ (by omega)]
    omega
  · intro s hs hletters
    have hL : 1 ≤ s.length := by
      cases s with
      | nil => exact absurd rfl hs
      | cons c t => simp
    have hds : ∀ d ∈ s.map letterVal, d < 26 := by
      intro d hd
      obtain ⟨c, hc, rfl⟩ := List.mem_map.1 hd
      have := hletters c hc
      unfold letterVal
      omega
    have hlenmap : (s.map letterVal).length = s.length := List.length_map s _
    have hb : base26 s < 26 ^ s.length := by
      rw [base26_eq_digitsVal, ← hlenmap]
      exact digitsVal_lt _ hds
    have halp : alphalen (alpha_index_str s) = s.length := by
      apply alphalen_eq_of _ _ hL
      · unfold alpha_index_str
        omega
      · unfold alpha_index_str
        omega
    unfold alpha_index_int
    rw [halp]
    have hoff : alpha_index_str s - floorval s.length = base26 s := by
      unfold alpha_index_str
      omega
    rw [hoff, base26_eq_digitsVal, ← hlenmap,
      encDigits_of_digits _ hds, List.reverse_reverse, List.map_map]
    have hcongr : ∀ c ∈ s, (valLetter ∘ letterVal) c = id c := by
      intro c hc
      have := hletters c hc
      exact valLetter_letterVal c this.1 this.2
    rw [List.map_congr_left hcongr, List.map_id]

/-- **C4 witness**: both round trips at the doctested values
`214441 ↔ "LEET"` and `"AYL" ↔ 1337`. -/
theorem alpha_index_roundtrip_witness :
    alpha_index_str (alpha_index_int 214441) = 214441 ∧
    ("AYL".data ≠ [] ∧ (∀ c ∈ "AYL".data, 65 ≤ c.toNat ∧ c.toNat ≤ 90)) ∧
    alpha_index_int (alpha_index_str "AYL".data) = "AYL".data :=
  ⟨alpha_index_roundtrip.1 214441, ⟨by decide, by decide⟩,
   alpha_index_roundtrip.2 "AYL".data (by decide) (by decide)⟩

theorem geom_sum_pow26 : ∀ L : Nat, 1 ≤ L →
    (26 ^ L - 26) / 25 = ∑ k ∈ Finset.Ico 1 L, 26 ^ k := by
  intro L
  induction L with
  | zero => omega
  | succ L ih =>
    intro _
    rcases Nat.eq_zero_or_pos L with rfl | hpos
    · simp
    · rw [Finset.sum_Ico_succ_top (by omega), ← ih (by omega)]
      have h1 := floorval_spec L (by omega)
      have h2 := floorval_spec (L + 1) (by omega)
      have hps : 26 ^ (L + 1) = 26 ^ L * 26 := pow_succ 26 L
      unfold floorval at h1 h2
      omega

/-- **C7 counterexample**: at `s = "AA"` the decoder returns 26, but the
claim's closed form `(26^(len-1) − 26)/25` plus the base-26 value gives 0. -/
theorem alpha_index_closed_form_cex :
    (alpha_index_str "AA".data : Int)
      ≠ (base26 "AA".data : Int) + specShorterCount ("AA".data).length := by
  decide

/-- **C7 (amended)**: for every non-empty string of length at most 12, the
decoder adds the base-26 value of the string to `(26^len − 26)/25` — the
count of integers represented by shorter non-empty strings,
`∑_{k=1}^{len-1} 26^k`.  Two restrictions against the claim as written:
the claim's exponent `len - 1` is off by one (refuted at `"AA"` below),
and the length bound is needed because from length 13 the source's
`floorval` computes `int((26**len-26)/25)` with float division, which
departs from the exact closed form (first off by 6 at length 13 — e.g.
the program decodes `'A' * 13` to 99246114928149456, not the exact
99246114928149462); on lengths ≤ 12 the float division is exact and the
program meets this statement. -/
theorem alpha_index_str_closed_form (s : List Char) (hs : s ≠ [])
    (hlen : s.length ≤ 12) :
    alpha_index_str s = base26 s + (26 ^ s.length - 26) / 25 ∧
    (26 ^ s.length - 26) / 25 = ∑ k ∈ Finset.Ico 1 s.length, 26 ^ k := by
  have hL : 1 ≤ s.length := by
    cases s with
    | nil => exact absurd rfl hs
    | cons c t => simp
  constructor
  · unfold alpha_index_str floorval
    omega
  · exact geom_sum_pow26 s.length hL

/-- **C7 witness**: the amended closed form at the doctested string
`"AYL"` (decode = 1337, length 3 ≤ 12). -/
theorem alpha_index_str_closed_form_witness :
    ("AYL".data ≠ [] ∧ "AYL".data.length ≤ 12) ∧
    (alpha_index_str "AYL".data
        = base26 "AYL".data + (26 ^ "AYL".data.length - 26) / 25 ∧
      (26 ^ "AYL".data.length - 26) / 25
        = ∑ k ∈ Finset.Ico 1 "AYL".data.length, 26 ^ k) :=
  ⟨⟨by decide, by decide⟩,
   alpha_index_str_closed_form "AYL".data (by decide) (by decide)⟩

theorem lex_append_right :
    ∀ (xs ys : List Nat), List.Lex (fun a b : Nat => a < b) xs ys →
      ∀ (u v : Nat), xs.length = ys.length →
      List.Lex (fun a b : Nat => a < b) (xs ++ [u]) (ys ++ [v]) := by
  intro xs ys h
  induction h with
  | nil =>
    intro u v hlen
    simp at hlen
  | cons h ih =>
    intro u v hlen
    exact List.Lex.cons (ih u v (by simpa using hlen))
  | rel h =>
    intro u v _
    exact List.Lex.rel h

theorem lex_append_same :
    ∀ (xs : List Nat) (u v : Nat), u < v →
      List.Lex (fun a b : Nat => a < b) (xs ++ [u]) (xs ++ [v]) := by
  intro xs u v h
  induction xs with
  | nil => exact List.Lex.rel h
  | cons a t ih => exact List.Lex.cons ih

/-- Numeric order of same-length digit blocks is the lexicographic order of
their most-significant-first digit strings. -/
theorem encDigits_rev_lex : ∀ L a b : Nat, a < b → b < 26 ^ L →
    List.Lex (fun x y : Nat => x < y)
      ((encDigits L a).reverse) ((encDigits L b).reverse) := by
  intro L
  induction L with
  | zero =>
    intro a b hab hb
    simp only [pow_zero, Nat.lt_one_iff] at hb
    omega
  | succ L ih =>
    intro a b hab hb
    simp only [encDigits, List.reverse_cons]
    have hdiv : a / 26 ≤ b / 26 := Nat.div_le_div_right (le_of_lt hab)
    have hblt : b / 26 < 26 ^ L := by
      apply Nat.div_lt_of_lt_mul
      rw [← pow_succ']
      exact hb
    rcases Nat.lt_or_ge (a / 26) (b / 26) with hlt | hge
    · apply lex_append_right _ _ (ih _ _ hlt hblt)
      rw [List.length_reverse, List.length_reverse, encDigits_length,
        encDigits_length]
    · have heq : a / 26 = b / 26 := le_antisymm hdiv hge
      rw [heq]
      apply lex_append_same
      omega

theorem lex_map_valLetter :
    ∀ xs ys : List Nat, List.Lex (fun x y : Nat => x < y) xs ys →
      (∀ a ∈ xs, ∀ b ∈ ys, a < b → letterVal (valLetter a) < letterVal (valLetter b)) →
      List.Lex (fun c d : Char => letterVal c < letterVal d)
        (xs.map valLetter) (ys.map valLetter) := by
  intro xs ys h
  induction h with
  | nil =>
    intro _
    simp only [List.map_nil, List.map_cons]
    exact List.Lex.nil
  | cons h ih =>
    intro hcond
    simp only [List.map_cons]
    exact List.Lex.cons (ih (fun a ha b hb hab =>
      hcond a (List.mem_cons_of_mem _ ha) b (List.mem_cons_of_mem _ hb) hab))
  | rel h =>
    intro hcond
    simp only [List.map_cons]
    exact List.Lex.rel (hcond _ (List.mem_cons_self _ _) _ (List.mem_cons_self _ _) h)

/-- **C8**: on the exact-arithmetic model of the codec, the encoder is
monotone in length and strictly increasing for the length-then-alphabetical
order.  (The Python source's floating point departs from this exact model
at huge inputs — first non-monotone pair at `m = 3817158266467285`,
`n = m + 1`; see the accompanying analysis.) -/
theorem alpha_index_int_mono (m n : Nat) (h : m < n) :
    (alpha_index_int m).length ≤ (alpha_index_int n).length ∧
    lenAlphaLt (alpha_index_int m) (alpha_index_int n) := by
  obtain ⟨hA1m, hlom, hhim⟩ := alphalen_spec m
  obtain ⟨hA1n, hlon, hhin⟩ := alphalen_spec n
  have hmono : alphalen m ≤ alphalen n := by
    unfold alphalen
    exact Nat.log_mono_right (by omega)
  constructor
  · rw [alpha_index_int_length, alpha_index_int_length]
    exact hmono
  · unfold lenAlphaLt
    rw [alpha_index_int_length, alpha_index_int_length]
    rcases Nat.lt_or_ge (alphalen m) (alphalen n) with hlt | hge
    · exact Or.inl hlt
    · have heq : alphalen m = alphalen n := le_antisymm hmono hge
      refine Or.inr ⟨heq, ?_⟩
      unfold alpha_index_int
      rw [heq]
      rw [heq] at hlom hhim
      apply lex_map_valLetter _ _ (encDigits_rev_lex (alphalen n) _ _ (by omega) (by omega))
      intro a ha b hb hab
      rw [letterVal_valLetter a (encDigits_lt _ _ a (List.mem_reverse.1 ha)),
        letterVal_valLetter b (encDigits_lt _ _ b (List.mem_reverse.1 hb))]
      exact hab

/-- **C8 witness**: the monotonicity statement applied at `0 < 1`
(`"A" ≺ "B"`). -/
theorem alpha_index_int_mono_witness :
    0 < 1 ∧ ((alpha_index_int 0).length ≤ (alpha_index_int 1).length ∧
      lenAlphaLt (alpha_index_int 0) (alpha_index_int 1)) :=
  ⟨by decide, alpha_index_int_mono 0 1 (by decide)⟩

end NimTools
